import Mathlib

/-!
Verification of the event-driven hard-disk simulation skeleton
(`tp3/src/main/python`): a shallow embedding of the Python sources with
Python floats embedded as rationals, together with theorems settling the
behavioural claims about the engine, the log readers and the frame
selection.

Embedding conventions:
* Python `float` values are modelled as `ℚ`; every arithmetic operation
  used by the sources (add, sub, mul, div, comparisons) is exact on the
  inputs considered.
* Mutation of `Particle` objects (pseudo.py assigns `p.position`,
  `p.velocity`) is rendered as functional update of the particle list;
  object identity becomes the index into that list.
* `pseudo.py` is a structural skeleton: several helpers carry a `# Fake`
  marker and bodies that merely type-check (`collision_time` returns
  `Event(0, [])`, `p_collision` returns the velocities unchanged), the
  class `PriorityQueue(list)` has an empty body, and the module cannot
  even be imported (`Invalid = Event(0, [])` raises `IndexError` inside
  `Event.__init__`).  The control flow that the file does spell out is
  embedded literally; the components the skeleton leaves unimplemented
  (minimum extraction, collision counters, lazy invalidation, the
  predictor contract) are modelled from the spec in the `Model`
  section below, each marked `Modelled from the spec:`.
-/

namespace TP3

/-- Planar vector, from `classes/vector.py` (`@dataclass(frozen=True) class Vector`);
the two float fields are embedded as rationals. -/
structure Vector where
  x : ℚ
  y : ℚ
deriving DecidableEq, Repr

/-- Embeds `Vector.__add__`: componentwise sum, returning a new vector. -/
def Vector.add (u v : Vector) : Vector := ⟨u.x + v.x, u.y + v.y⟩

/-- Embeds `Vector.__sub__`: componentwise difference. -/
def Vector.sub (u v : Vector) : Vector := ⟨u.x - v.x, u.y - v.y⟩

/-- Embeds `Vector.__mul__`: scaling by a float. -/
def Vector.mul (u : Vector) (k : ℚ) : Vector := ⟨u.x * k, u.y * k⟩

/-- Embeds `Vector.dot`: dot product. -/
def Vector.dot (u v : Vector) : ℚ := u.x * v.x + u.y * v.y

/-- Particle, from `classes/particle.py`: position, velocity, radius
(spelled `radious` in the source). -/
structure Particle where
  position : Vector
  velocity : Vector
  radious : ℚ
deriving DecidableEq, Repr

/-- Wall, from `classes/wall.py`: a fixed segment.  The second endpoint is
called `end` in the source, which is a reserved word here. -/
structure Wall where
  start : Vector
  stop : Vector
deriving DecidableEq, Repr

/-- Embeds `Collideable = Particle | Wall` (pseudo.py line 6); a particle is
identified by its index in the particle list. -/
def Collideable : Type := ℕ ⊕ Wall

instance : DecidableEq Collideable := instDecidableEqSum

/-- Embeds `pseudo.w_collision` (pseudo.py lines 20–21): the body is
`return a.velocity` — it hands the incoming velocity back unchanged. -/
def w_collision (a : Particle) (_ : Wall) : Vector := a.velocity

/-- Embeds `pseudo.p_collision` (pseudo.py lines 17–18, marked `# Fake`): returns
`(a.velocity, b.velocity)`, i.e. both velocities unchanged. -/
def p_collision (a b : Particle) : Vector × Vector := (a.velocity, b.velocity)

/-- Embeds `pseudo.advance_particles` (pseudo.py lines 51–53): every particle's
position becomes `p.position + p.velocity * time`, where `time` is exactly
the argument the caller passes (`run_simulation` passes `event.time`, the
absolute event time — the file has no `current_time` variable). -/
def advance_particles (time : ℚ) (particles : List Particle) : List Particle :=
  particles.map fun p => { p with position := p.position.add (p.velocity.mul time) }

/-- Event values circulating in pseudo.py.  The sentinel
`Invalid = Event(0, [])` (line 27) would raise `IndexError` inside
`Event.__init__` (it reads `data[0]` from an empty list), so the sentinel
carries no usable fields; it is rendered as a separate constructor. -/
inductive PEvent
  | invalid
  | ev (time : ℚ) (a : ℕ) (b : Collideable)
deriving DecidableEq

/-- Embeds `pseudo.collision_time` (lines 13–14, marked `# Fake`): returns
`Event(0, [])`, the very expression that defines the `Invalid` sentinel. -/
def collision_time (_ : ℕ) (_ : Collideable) : PEvent := PEvent.invalid

/-- The `time` field access on a pseudo event.  For the sentinel (whose source
fields do not exist, see `PEvent`) the nominal value 0 is used; the only
read of `Invalid.time` in the source is the guard `event.time < math.inf`,
which holds for every finite float, hence for every rational. -/
def PEvent.time : PEvent → ℚ
  | .invalid => 0
  | .ev t _ _ => t

/-- Embeds `pseudo.compute_collision_time` (lines 38–42): append a candidate event
for every collideable; the guard `event.time < math.inf` is always true in
the rational model (no infinity), so every candidate is appended. -/
def compute_collision_time (cols : List Collideable) (p : ℕ)
    (queue : List PEvent) : List PEvent :=
  queue ++ cols.map (fun c => collision_time p c)

/-- Embeds `pseudo.set_initial_collision_time` (lines 44–49): the double loop over
particles and collideables, appending each candidate. -/
def set_initial_collision_time (particles : List Particle)
    (cols : List Collideable) : List PEvent :=
  ((List.range particles.length).map (fun i => cols.map (collision_time i))).flatten

/-- The one runtime error the embedded loop can raise: `list.pop()` on an
empty Python list raises `IndexError`. -/
inductive PopError
  | indexError
deriving DecidableEq, Repr

/-- The inner pop loop of `run_simulation` (pseudo.py lines 68–71):
`queue.pop()` removes the **last** element of the Python list (the class
`PriorityQueue(list)` has an empty body, so list behaviour is inherited);
the loop repeats while the popped event equals the `Invalid` sentinel, and
popping an empty list raises `IndexError`. -/
def popLoop (q : List PEvent) : Except PopError ((ℚ × ℕ × Collideable) × List PEvent) :=
  match h : q.getLast? with
  | none => .error PopError.indexError
  | some e =>
    match e with
    | .invalid => popLoop q.dropLast
    | .ev t a b => .ok ((t, a, b), q.dropLast)
termination_by q.length
decreasing_by
  have hne : q ≠ [] := by
    intro hq
    rw [hq] at h
    simp [List.getLast?] at h
  have : q.dropLast.length = q.length - 1 := List.length_dropLast q
  have hpos : 0 < q.length := List.length_pos.mpr hne
  omega

/-- Embeds `pseudo.collide` (lines 55–59): dispatch on the collideable tag and
write the velocities returned by `w_collision` / `p_collision` back into
the particle list (the source mutates the objects in place).  An
out-of-range index leaves the list unchanged, a situation the source
cannot represent (it holds object references). -/
def collide (particles : List Particle) (a : ℕ) (b : Collideable) : List Particle :=
  match b with
  | .inr w =>
    match particles[a]? with
    | none => particles
    | some pa => particles.set a { pa with velocity := w_collision pa w }
  | .inl j =>
    match particles[a]?, particles[j]? with
    | some pa, some pb =>
      let vs := p_collision pa pb
      (particles.set a { pa with velocity := vs.1 }).set j { pb with velocity := vs.2 }
    | _, _ => particles

/-- State threaded through the embedded `run_simulation` loop. -/
structure PseudoState where
  particles : List Particle
  queue : List PEvent
deriving DecidableEq

/-- The `for _ in range(steps)` body of `run_simulation` (lines 67–77):
pop until a non-`Invalid` event (raising `IndexError` on an empty queue),
advance all particles by the event's time, resolve the collision, then
recompute candidate events for the participants. -/
def runSteps (cols : List Collideable) : ℕ → PseudoState → Except PopError PseudoState
  | 0, s => .ok s
  | n + 1, s =>
    match popLoop s.queue with
    | .error err => .error err
    | .ok ((t, a, b), q') =>
      let ps := advance_particles t s.particles
      let ps' := collide ps a b
      let q1 := compute_collision_time cols a q'
      let q2 := match b with
        | .inl j => compute_collision_time cols j q1
        | .inr _ => q1
      runSteps cols n { particles := ps', queue := q2 }

/-- Embeds `pseudo.run_simulation` (lines 61–77).  The source calls
`setup_simulation(L)` and discards its result, then reads the module
globals `particles` and `collideables`, which pseudo.py declares but never
assigns; the embedding receives them as parameters. -/
def run_simulation (steps : ℕ) (particles : List Particle)
    (cols : List Collideable) : Except PopError PseudoState :=
  runSteps cols steps
    { particles := particles, queue := set_initial_collision_time particles cols }

/-! ### Log reading: `classes/event.py` and `frames.py`

Both readers convert the time field with Python's builtin `float()` and the
id fields with `int()`.  `pythonFloat` embeds `float()` on the decimal
literal subset these files can receive from a log line: an optional sign,
digits, and an optional single `.` with a fractional digit string (at
least one digit overall).  Any other character — in particular a comma —
makes `float()` raise `ValueError`, rendered here as `none`.  (Infinities,
`nan` and exponents are outside the inputs considered.) -/

/-- Numeric value of a decimal digit character, `none` otherwise. -/
def digitVal (c : Char) : Option ℕ :=
  if c.isDigit then some (c.toNat - 48) else none

/-- Left fold of `parseDigits`: accumulates the value digit by digit;
a non-digit character sinks the accumulator to `none` for good. -/
def parseDigitsAux : Option ℕ → List Char → Option ℕ
  | acc, [] => acc
  | acc, c :: cs =>
    parseDigitsAux
      (match acc, digitVal c with
       | some n, some d => some (n * 10 + d)
       | _, _ => none)
      cs

/-- Reads a digit string as a natural number; any non-digit yields `none`.
The empty string yields `some 0` and emptiness is checked by callers. -/
def parseDigits (cs : List Char) : Option ℕ := parseDigitsAux (some 0) cs

/-- Body of `pythonFloat` after the optional sign has been stripped:
an integer digit string, optionally split by a single `.`. -/
def pythonFloatAux (cs : List Char) (sign : ℚ) : Option ℚ :=
  let ip := cs.takeWhile (· ≠ '.')
  match cs.dropWhile (· ≠ '.') with
  | [] =>
    if ip.isEmpty then none
    else (parseDigits ip).map (fun n : ℕ => sign * (n : ℚ))
  | _ :: fp =>
    if (ip.isEmpty && fp.isEmpty) || fp.contains '.' then none
    else
      match parseDigits ip, parseDigits fp with
      | some n, some f => some (sign * ((n : ℚ) + (f : ℚ) / 10 ^ fp.length))
      | _, _ => none

/-- Python `float()` on a plain decimal literal (see section comment). -/
def pythonFloat (s : String) : Option ℚ :=
  match s.toList with
  | '-' :: r => pythonFloatAux r (-1)
  | '+' :: r => pythonFloatAux r 1
  | r => pythonFloatAux r 1

/-- Python `int()` on a decimal literal: optional sign and a non-empty
digit string; anything else raises `ValueError`, rendered as `none`. -/
def pythonInt (s : String) : Option ℤ :=
  match s.toList with
  | '-' :: r => if r.isEmpty then none else (parseDigits r).map (fun n => -(n : ℤ))
  | '+' :: r => if r.isEmpty then none else (parseDigits r).map (fun n => (n : ℤ))
  | r => if r.isEmpty then none else (parseDigits r).map (fun n => (n : ℤ))

/-- A parsed collision-log record, from `classes/event.py` (`Event`
dataclass: id, time, type, a, b). -/
structure LogEvent where
  id : ℕ
  time : ℚ
  type : String
  a : ℤ
  b : ℤ
deriving DecidableEq, Repr

/-- Embeds `Event.__init__(id, data)` from `classes/event.py` lines 11–16:
`time = float(data[0])`, `type = data[1]`, `a = int(data[2])`,
`b = int(data[3])`.  A missing field (`IndexError`) or a failed
conversion (`ValueError`) is rendered as `none`. -/
def mkEvent (id : ℕ) (data : List String) : Option LogEvent := do
  let t ← data[0]?
  let time ← pythonFloat t
  let type ← data[1]?
  let sa ← data[2]?
  let a ← pythonInt sa
  let sb ← data[3]?
  let b ← pythonInt sb
  pure ⟨id, time, type, a, b⟩

/-- Time extraction of `frames.checkpoints` (frames.py lines 8–9):
`float(line.strip().split(' ')[0])` over each non-blank line; a failing
conversion aborts the comprehension (`ValueError`), rendered as `none`. -/
def eventTimes (lines : List String) : Option (List ℚ) :=
  (lines.filter (fun l => !(l.trim.isEmpty))).mapM
    (fun l => pythonFloat ((l.trim.splitOn " ").getD 0 ""))

/-- The selection loop of `frames.checkpoints` (frames.py lines 11–17)
over the enumerated time list: an index is selected when its time exceeds
`previous + 0.015`, and `previous` is then updated to that time. -/
def checkpointsLoop : ℚ → List (ℕ × ℚ) → List ℕ
  | _, [] => []
  | previous, (i, t) :: rest =>
    if t > previous + 15 / 1000 then i :: checkpointsLoop t rest
    else checkpointsLoop previous rest

/-- Embeds `frames.checkpoints` on an already-parsed time list, with the
initial `previous = 0.0`. -/
def checkpoints (ts : List ℚ) : List ℕ :=
  checkpointsLoop 0 ts.enum

/-- Embeds `frames.count` (frames.py lines 30–35): `1 + len(checkpoints())`. -/
def count (ts : List ℚ) : ℕ := 1 + (checkpoints ts).length

/-! ### Modelled engine components (spec §4.3–§4.5)

The repository ships the Event Queue, the collision counters and the
lazy-invalidation check only as declarations: `class PriorityQueue(list):
pass` has an empty body, the `Event` dataclass stores no counter
snapshots, and the loop's freshness test compares against a sentinel that
nothing ever produces.  The definitions below are therefore modelled from
the spec, as marked on each. -/

/-- Modelled from the spec: the participant `b` of an event is "a particle
id or a wall id depending on discriminant" (§3); the concrete `Event`
dataclass keeps both as bare ints with a separate type token. -/
inductive MTarget
  | particle (j : ℕ)
  | wall (j : ℕ)
deriving DecidableEq, Repr

/-- The id carried by a target, whichever the discriminant. -/
def MTarget.idx : MTarget → ℕ
  | .particle j => j
  | .wall j => j

/-- Modelled from the spec: an Event with scheduled time, participants and
the collision-counter snapshot(s) recorded at creation (§4.3); the `Event`
dataclass in `classes/event.py` stores no snapshots.  `snapB` is the
snapshot of `b`'s counter and is ignored (kept 0) when `b` is a wall. -/
structure MEvent where
  time : ℚ
  a : ℕ
  b : MTarget
  snapA : ℕ
  snapB : ℕ
deriving DecidableEq, Repr

/-- Modelled from the spec: extraction order — earliest scheduled time,
ties broken "by ascending participant id pair" (§4.3). -/
def keyLe (e f : MEvent) : Bool :=
  decide (e.time < f.time) ||
    (decide (e.time = f.time) &&
      (decide (e.a < f.a) || (decide (e.a = f.a) && decide (e.b.idx ≤ f.b.idx))))

/-- Modelled from the spec: extraction of the globally earliest event from
the Event Queue (§4.3); `pseudo.PriorityQueue` is an empty-bodied class.
Returns the extracted minimum and the remaining queue. -/
def popMin : List MEvent → Option (MEvent × List MEvent)
  | [] => none
  | e :: rest =>
    match popMin rest with
    | none => some (e, [])
    | some (m, rest') =>
      if keyLe e m then some (e, rest) else some (m, e :: rest')

/-- Increments the collision counter of particle `i`. -/
def cinc (cs : List ℕ) (i : ℕ) : List ℕ := cs.set i (cs.getD i 0 + 1)

/-- Modelled from the spec: the Collision Resolver "increments the
collision counter of every participant that is a particle" (§4.4);
counters live in a list indexed by particle id. -/
def bump (cs : List ℕ) (e : MEvent) : List ℕ :=
  match e.b with
  | .particle j => cinc (cinc cs e.a) j
  | .wall _ => cinc cs e.a

/-- Modelled from the spec: "an event is valid iff every participant's
current collision counter still equals the snapshot recorded at the
event's creation time" (§4.3). -/
def mvalid (cs : List ℕ) (e : MEvent) : Bool :=
  (cs.getD e.a 0 == e.snapA) &&
    (match e.b with
     | .particle j => cs.getD j 0 == e.snapB
     | .wall _ => true)

/-- An event is stale for counters `cs` when some particle participant's
current counter strictly exceeds the stored snapshot. -/
def staleB (cs : List ℕ) (e : MEvent) : Bool :=
  decide (e.snapA < cs.getD e.a 0) ||
    (match e.b with
     | .particle j => decide (e.snapB < cs.getD j 0)
     | .wall _ => false)

/-- Modelled from the spec: a candidate collision returned by the
Collision Predictor (time and participants, §4.2); the snapshot fields are
attached by the queue at insertion. -/
structure Cand where
  time : ℚ
  a : ℕ
  b : MTarget
deriving DecidableEq, Repr

/-- Modelled from the spec: event creation — "Every Event, at creation,
stores a snapshot of the collision counter(s) of its participant(s)"
(§4.3). -/
def mkMEvent (cs : List ℕ) (c : Cand) : MEvent :=
  { time := c.time, a := c.a, b := c.b,
    snapA := cs.getD c.a 0,
    snapB := match c.b with
      | .particle j => cs.getD j 0
      | .wall _ => 0 }

/-- Modelled from the spec: the Simulation Loop's state — current time,
per-particle collision counters, the Event Queue, and the emitted
collision log (§4.5). -/
structure MState where
  now : ℚ
  counters : List ℕ
  queue : List MEvent
  log : List MEvent
deriving DecidableEq, Repr

/-- What one `RUNNING` iteration did to the popped event. -/
inductive MAction
  | resolved (e : MEvent)
  | discarded (e : MEvent)
deriving DecidableEq, Repr

/-- Modelled from the spec: one `RUNNING` iteration (§4.5): pop the
minimum-time event; if stale, silently discard it; otherwise advance time
to the event's time, increment the participants' counters, append the
log record, and insert the re-predicted candidate events (with fresh
snapshots) for the affected participants.  `pred` abstracts the Collision
Predictor queries of step 4; it sees the post-resolution state. -/
def mstep (pred : MState → List Cand) (s : MState) : Option (MAction × MState) :=
  match popMin s.queue with
  | none => none
  | some (e, q') =>
    if mvalid s.counters e then
      let cs' := bump s.counters e
      let mid : MState := { now := e.time, counters := cs', queue := q', log := s.log ++ [e] }
      some (.resolved e, { mid with queue := q' ++ (pred mid).map (mkMEvent cs') })
    else
      some (.discarded e, { s with queue := q' })

/-- Runs up to `n` iterations of the loop, collecting the actions taken;
stops early when the queue is empty (§4.5 step 7). -/
def mrun (pred : MState → List Cand) : ℕ → MState → List MAction × MState
  | 0, s => ([], s)
  | n + 1, s =>
    match mstep pred s with
    | none => ([], s)
    | some (a, s') =>
      let r := mrun pred n s'
      (a :: r.1, r.2)

/-- Well-formedness of a queued event for the current time `now` and
counters `cs`: the event is not scheduled in the past (§3: scheduled time
"strictly ≥ current simulation time"), its particle participants are
within the counter table, and each stored snapshot is at most the current
counter (counters only ever grow after the snapshot is taken). -/
def eventOK (now : ℚ) (cs : List ℕ) (e : MEvent) : Bool :=
  decide (now ≤ e.time) && decide (e.a < cs.length) &&
    decide (e.snapA ≤ cs.getD e.a 0) &&
    (match e.b with
     | .particle j => decide (j < cs.length) && decide (e.snapB ≤ cs.getD j 0)
     | .wall _ => true)

/-- Loop invariant: every queued event is well-formed. -/
abbrev MInv (s : MState) : Prop := ∀ e ∈ s.queue, eventOK s.now s.counters e = true

/-- Modelled from the spec: the Collision Predictor contract (§4.2, §3) —
predicted candidates lie in the future of the state they are computed
from and name particles that exist in the counter table. -/
def PredOK (pred : MState → List Cand) : Prop :=
  ∀ s : MState, ∀ c ∈ pred s,
    s.now ≤ c.time ∧ c.a < s.counters.length ∧
      (match c.b with
       | MTarget.particle j => j < s.counters.length
       | MTarget.wall _ => True)

/-- The particle participants of an event (`a`, plus `b` when `b` is a
particle). -/
def parts (e : MEvent) : List ℕ :=
  e.a :: (match e.b with
    | .particle j => [j]
    | .wall _ => [])

/-- Two events share a particle participant. -/
abbrev sharesParticle (e r : MEvent) : Prop := ∃ p ∈ parts e, p ∈ parts r

/-- The scheduled times of the resolved (logged) events of a trace, in
processing order. -/
def resolvedTimes (tr : List MAction) : List ℚ :=
  tr.filterMap fun a =>
    match a with
    | .resolved e => some e.time
    | .discarded _ => none

/-- Modelled from the spec: one collision-log line,
`"<time> <type> <a> <b>"` (§6). -/
def logLine (e : MEvent) : String :=
  toString e.time ++ " " ++
    (match e.b with
     | .particle _ => "PARTICLE"
     | .wall _ => "WALL") ++ " " ++ toString e.a ++ " " ++ toString e.b.idx

/-- The serialized collision log of a state. -/
def logLines (s : MState) : List String := s.log.map logLine

/-! ## Theorems -/

/-- C9: vector addition is commutative and the dot product is symmetric.
Both operations build a fresh `Vector` value from their operands; the
source operands (frozen dataclasses) are not modified, which the
functional embedding renders inherently. -/
theorem vector_add_comm_dot_symm (u v : Vector) :
    u.add v = v.add u ∧ u.dot v = v.dot u := by
  refine ⟨?_, ?_⟩
  · simp only [Vector.add, Vector.mk.injEq]
    exact ⟨add_comm _ _, add_comm _ _⟩
  · simp only [Vector.dot]
    ring

/-- C2: the advancement step uses the absolute event time, not the elapsed
interval.  A particle starting at the origin with velocity `(1, 0)` that
undergoes two consecutive events at times 1 and 2 is moved to `(3, 0)`
(`run_simulation` passes `event.time` to `advance_particles`, and no
`current_time` variable exists), whereas the claimed rule
`position += velocity * (event.time − current_time)` would put it at
`(2, 0)`. -/
theorem advance_particles_absolute_time :
    advance_particles 2 (advance_particles 1 [⟨⟨0, 0⟩, ⟨1, 0⟩, 1⟩]) =
      [⟨⟨3, 0⟩, ⟨1, 0⟩, 1⟩] ∧
    advance_particles 2 (advance_particles 1 [⟨⟨0, 0⟩, ⟨1, 0⟩, 1⟩]) ≠
      [⟨⟨2, 0⟩, ⟨1, 0⟩, 1⟩] := by
  constructor
  · simp only [advance_particles, List.map, Vector.add, Vector.mul,
      Particle.mk.injEq, Vector.mk.injEq]
    norm_num
  · simp only [advance_particles, List.map, Vector.add, Vector.mul, ne_eq,
      List.cons.injEq, Particle.mk.injEq, Vector.mk.injEq]
    norm_num

/-- C4: `w_collision` returns the incoming velocity unchanged — it does
not negate the normal component.  For a particle hitting a horizontal
wall with velocity `(0, −1)` the code yields `(0, −1)`, not the claimed
`(0, 1)`. -/
theorem w_collision_velocity_unchanged :
    w_collision ⟨⟨0, 0⟩, ⟨0, -1⟩, 1⟩ ⟨⟨0, 0⟩, ⟨1, 0⟩⟩ = ⟨0, -1⟩ ∧
    ((⟨0, -1⟩ : Vector) ≠ ⟨0, 1⟩) := by
  refine ⟨rfl, ?_⟩
  simp only [ne_eq, Vector.mk.injEq, not_and]
  intro
  norm_num

/-- C5: with a single free particle, no walls and no other particles, the
event queue starts empty and the very first `queue.pop()` of the loop
raises `IndexError` (Python `list.pop` on an empty list); `run_simulation`
does not terminate normally with an informational early-stop. -/
theorem run_simulation_empty_queue_raises :
    run_simulation 1 [⟨⟨0, 0⟩, ⟨1, 0⟩, 1⟩] [] =
      Except.error PopError.indexError := by
  simp [run_simulation, runSteps, set_initial_collision_time, popLoop]

/-- A non-digit character makes `digitVal` fail. -/
theorem digitVal_comma : digitVal ',' = none := by decide

/-- Once the accumulator of `parseDigitsAux` is `none` it stays `none`. -/
theorem parseDigitsAux_none (cs : List Char) : parseDigitsAux none cs = none := by
  induction cs with
  | nil => rfl
  | cons c cs ih =>
    cases hd : digitVal c <;> simpa [parseDigitsAux, hd] using ih

/-- A digit string containing a comma never parses. -/
theorem parseDigitsAux_comma (cs : List Char) (h : ',' ∈ cs) (acc : Option ℕ) :
    parseDigitsAux acc cs = none := by
  induction cs generalizing acc with
  | nil => cases h
  | cons c cs ih =>
    rcases List.mem_cons.mp h with hc | hc
    · cases acc <;>
        simpa [parseDigitsAux, ← hc, digitVal_comma] using parseDigitsAux_none cs
    · exact ih hc _

/-- The function `parseDigits` rejects any string containing a comma. -/
theorem parseDigits_comma (cs : List Char) (h : ',' ∈ cs) :
    parseDigits cs = none :=
  parseDigitsAux_comma cs h _

/-- The first character surviving `dropWhile` falsifies the predicate. -/
theorem dropWhile_head_false (p : Char → Bool) (cs : List Char) (c : Char)
    (t : List Char) (h : cs.dropWhile p = c :: t) : p c = false := by
  induction cs with
  | nil => cases h
  | cons a as ih =>
    by_cases hp : p a
    · exact ih (by simpa [List.dropWhile, hp] using h)
    · have : a = c := by
        simp [List.dropWhile, hp] at h
        exact h.1
      simpa [this] using hp

/-- The function `pythonFloatAux` rejects any character list containing a comma. -/
theorem pythonFloatAux_comma (cs : List Char) (h : ',' ∈ cs) (sign : ℚ) :
    pythonFloatAux cs sign = none := by
  have hsplit : cs.takeWhile (· ≠ '.') ++ cs.dropWhile (· ≠ '.') = cs :=
    List.takeWhile_append_dropWhile _ cs
  rcases List.mem_append.mp (hsplit ▸ h) with hip | hdr
  · have hpd := parseDigits_comma _ hip
    rcases hdw : cs.dropWhile (· ≠ '.') with _ | ⟨d, fp⟩
    · simp only [pythonFloatAux, hdw, hpd, Option.map_none', ite_self]
    · cases hfp : parseDigits fp <;>
        simp only [pythonFloatAux, hdw, hpd, hfp, ite_self]
  · rcases hdw : cs.dropWhile (· ≠ '.') with _ | ⟨d, fp⟩
    · rw [hdw] at hdr; cases hdr
    · rw [hdw] at hdr
      have hfp : ',' ∈ fp := by
        have hd : d = '.' := by
          have := dropWhile_head_false _ _ _ _ hdw
          simpa using this
        rcases List.mem_cons.mp hdr with hc | hc
        · rw [hd] at hc; cases hc
        · exact hc
      by_cases hdot : fp.contains '.'
      · simp only [pythonFloatAux, hdw, hdot, Bool.or_true, if_true]
      · have hpd := parseDigits_comma _ hfp
        cases hip : parseDigits (cs.takeWhile (· ≠ '.')) <;>
          simp only [pythonFloatAux, hdw, hdot, hpd, hip, ite_self]

/-- The function `pythonFloat` (Python `float()`) rejects any string containing a
comma: `float("…,…")` raises `ValueError`. -/
theorem pythonFloat_comma (s : String) (h : ',' ∈ s.toList) :
    pythonFloat s = none := by
  have h' : pythonFloat s =
      (match s.toList with
       | '-' :: r => pythonFloatAux r (-1)
       | '+' :: r => pythonFloatAux r 1
       | r => pythonFloatAux r 1) := rfl
  rcases hl : s.toList with _ | ⟨c, r⟩
  · rw [hl] at h; cases h
  · rw [hl] at h h'
    rw [h']
    by_cases hc1 : c = '-'
    · subst hc1
      have hr : ',' ∈ r := by
        rcases List.mem_cons.mp h with hc | hc
        · cases hc
        · exact hc
      simpa using pythonFloatAux_comma r hr (-1)
    · by_cases hc2 : c = '+'
      · subst hc2
        have hr : ',' ∈ r := by
          rcases List.mem_cons.mp h with hc | hc
          · cases hc
          · exact hc
        simpa using pythonFloatAux_comma r hr 1
      · have hmatch : (match c :: r with
            | '-' :: r => pythonFloatAux r (-1)
            | '+' :: r => pythonFloatAux r 1
            | r => pythonFloatAux r 1) = pythonFloatAux (c :: r) 1 := by
          simp [hc1, hc2]
        rw [hmatch]
        exact pythonFloatAux_comma _ h 1

/-- C7 counterexample: the readers do not parse a comma-separated time.
A log line whose time field is `"1,5"` makes `Event.__init__` raise
`ValueError` (here: `none`), while the dot form `"1.5"` parses to the
intended value 3/2 — refuting the claim that both forms parse alike. -/
theorem comma_decimal_line_fails :
    mkEvent 0 ["1,5", "WALL", "0", "1"] = none ∧
    mkEvent 0 ["1.5", "WALL", "0", "1"] =
      some { id := 0, time := 3 / 2, type := "WALL", a := 0, b := 1 } := by
  constructor
  · rfl
  · have h : mkEvent 0 ["1.5", "WALL", "0", "1"] =
        some { id := 0, time := 1 * (((1 : ℕ) : ℚ) + ((5 : ℕ) : ℚ) / 10 ^ (1 : ℕ)),
               type := "WALL", a := ((0 : ℕ) : ℤ), b := ((1 : ℕ) : ℤ) } := rfl
    rw [h]
    norm_num

/-- C7 (amended): the readers accept only the dot decimal form.  Any time
field containing a comma fails to convert — `float()` raises
`ValueError` — so the `Event` construction from a split log line fails
rather than parsing the intended value (and `frames.checkpoints`, which
converts its time fields with the same `float()` call, fails likewise). -/
theorem comma_time_never_parses (i : ℕ) (t : String) (rest : List String)
    (h : ',' ∈ t.toList) :
    pythonFloat t = none ∧ mkEvent i (t :: rest) = none := by
  have hp := pythonFloat_comma t h
  refine ⟨hp, ?_⟩
  simp [mkEvent, hp]

/-- Witness for `comma_time_never_parses` at the concrete line
`"1,5 WALL 0 1"`. -/
theorem comma_time_never_parses_w :
    pythonFloat "1,5" = none ∧ mkEvent 0 ("1,5" :: ["WALL", "0", "1"]) = none :=
  comma_time_never_parses 0 "1,5" ["WALL", "0", "1"] (by decide)

/-- The index components of `List.enum` are strictly increasing. -/
theorem pairwise_fst_enum (l : List ℚ) :
    List.Pairwise (fun p q : ℕ × ℚ => p.1 < q.1) l.enum := by
  rw [List.pairwise_iff_getElem]
  intro i j hi hj hij
  rw [List.getElem_enum, List.getElem_enum]
  simpa using hij

/-- Behaviour of the `frames.checkpoints` selection loop on an arbitrary
enumerated suffix: every selected index comes from the processed list, a
selected head exceeds the running `previous` by more than 0.015, and
consecutive selected indices are increasing with times more than 0.015
apart. -/
theorem checkpointsLoop_spec (v : ℕ → ℚ) (l : List (ℕ × ℚ)) :
    ∀ prev : ℚ,
      (∀ p ∈ l, v p.1 = p.2) →
      List.Pairwise (fun p q : ℕ × ℚ => p.1 < q.1) l →
      (∀ j ∈ checkpointsLoop prev l, ∃ p ∈ l, p.1 = j) ∧
      (∀ j ∈ (checkpointsLoop prev l).head?, prev + 15 / 1000 < v j) ∧
      List.Chain' (fun i j => i < j ∧ v i + 15 / 1000 < v j)
        (checkpointsLoop prev l) := by
  induction l with
  | nil =>
    intro prev _ _
    refine ⟨?_, ?_, ?_⟩ <;> simp [checkpointsLoop]
  | cons p l ih =>
    obtain ⟨i, t⟩ := p
    intro prev hv hpw
    have hvi : v i = t := hv (i, t) (List.mem_cons_self _ _)
    have hv' : ∀ q ∈ l, v q.1 = q.2 := fun q hq => hv q (List.mem_cons_of_mem _ hq)
    have hlt : ∀ q ∈ l, i < q.1 := (List.pairwise_cons.mp hpw).1
    have hpw' := (List.pairwise_cons.mp hpw).2
    by_cases hsel : t > prev + 15 / 1000
    · obtain ⟨ihmem, ihhead, ihchain⟩ := ih t hv' hpw'
      have hres : checkpointsLoop prev ((i, t) :: l) = i :: checkpointsLoop t l := by
        simp [checkpointsLoop, hsel]
      rw [hres]
      refine ⟨?_, ?_, ?_⟩
      · intro j hj
        rcases List.mem_cons.mp hj with hj | hj
        · exact ⟨(i, t), List.mem_cons_self _ _, hj.symm⟩
        · obtain ⟨q, hq, hq1⟩ := ihmem j hj
          exact ⟨q, List.mem_cons_of_mem _ hq, hq1⟩
      · intro j hj
        simp only [List.head?_cons, Option.mem_def, Option.some.injEq] at hj
        rw [← hj, hvi]
        exact hsel
      · rw [List.chain'_cons']
        refine ⟨?_, ihchain⟩
        intro j hj
        have hj2 := ihhead j hj
        obtain ⟨q, hq, hq1⟩ := ihmem j (List.mem_of_mem_head? hj)
        refine ⟨?_, ?_⟩
        · rw [← hq1]
          exact hlt q hq
        · rw [hvi]
          exact hj2
    · obtain ⟨ihmem, ihhead, ihchain⟩ := ih prev hv' hpw'
      have hres : checkpointsLoop prev ((i, t) :: l) = checkpointsLoop prev l := by
        simp [checkpointsLoop, hsel]
      rw [hres]
      exact ⟨fun j hj => (ihmem j hj).imp fun q h => ⟨List.mem_cons_of_mem _ h.1, h.2⟩,
        ihhead, ihchain⟩

/-- C10: the index list produced by `frames.checkpoints` is strictly
increasing; for consecutive selected indices the event time at the later
index exceeds the time at the earlier one by more than 0.015; every
selected index addresses an actual event; and `frames.count` equals one
plus the length of the checkpoint list. -/
theorem frames_checkpoints_spec (ts : List ℚ) :
    List.Pairwise (· < ·) (checkpoints ts) ∧
    List.Chain' (fun i j => ts.getD i 0 + 15 / 1000 < ts.getD j 0) (checkpoints ts) ∧
    (∀ i ∈ checkpoints ts, i < ts.length) ∧
    count ts = 1 + (checkpoints ts).length := by
  have hv : ∀ p ∈ ts.enum, (fun k => ts.getD k 0) p.1 = p.2 := by
    intro p hp
    have hg := List.mem_enum_iff_getElem?.mp hp
    simp only [List.getD_eq_getD_get?, List.get?_eq_getElem?, hg, Option.getD_some]
  obtain ⟨hmem, _, hchain⟩ :=
    checkpointsLoop_spec (fun k => ts.getD k 0) ts.enum 0 hv (pairwise_fst_enum ts)
  refine ⟨?_, ?_, ?_, rfl⟩
  · exact List.chain'_iff_pairwise.mp (hchain.imp fun a b h => h.1)
  · exact hchain.imp fun a b h => h.2
  · intro i hi
    obtain ⟨p, hp, hp1⟩ := hmem i hi
    have hg := List.mem_enum_iff_getElem?.mp hp
    have hl : p.1 < ts.length := by
      by_contra hge
      rw [List.getElem?_eq_none (Nat.le_of_not_lt hge)] at hg
      cases hg
    exact hp1 ▸ hl

/-- Extraction order respects time: an event preceding another in the
extraction order is not scheduled later. -/
theorem keyLe_time_le (e f : MEvent) (h : keyLe e f = true) : e.time ≤ f.time := by
  simp only [keyLe, Bool.or_eq_true, Bool.and_eq_true, decide_eq_true_eq] at h
  rcases h with h | ⟨heq, _⟩
  · exact le_of_lt h
  · exact le_of_eq heq

/-- Totality of the extraction order on times. -/
theorem keyLe_false_time_le (e f : MEvent) (h : keyLe e f = false) :
    f.time ≤ e.time := by
  simp only [keyLe, Bool.or_eq_false_iff, Bool.and_eq_false_iff,
    decide_eq_false_iff_not] at h
  exact le_of_not_lt h.1

/-- The function `popMin` yields nothing exactly on the empty queue. -/
theorem popMin_eq_none_iff (l : List MEvent) : popMin l = none ↔ l = [] := by
  cases l with
  | nil => simp [popMin]
  | cons e rest =>
    rcases hpm : popMin rest with _ | ⟨m, r⟩
    · simp [popMin, hpm]
    · simp only [popMin, hpm]
      split <;> simp

/-- The function `popMin` returns a member of the queue whose time is minimal, and the
remainder is the queue with that one occurrence removed. -/
theorem popMin_spec (l : List MEvent) (m : MEvent) (r : List MEvent)
    (h : popMin l = some (m, r)) :
    m ∈ l ∧ (∀ x ∈ l, m.time ≤ x.time) ∧ l.Perm (m :: r) := by
  induction l generalizing m r with
  | nil => cases h
  | cons e rest ih =>
    rcases hpm : popMin rest with _ | ⟨m', r'⟩
    · have hrest : rest = [] := (popMin_eq_none_iff rest).mp hpm
      simp only [popMin, hpm] at h
      subst hrest
      injection h with h1
      injection h1 with hm hr
      subst hm; subst hr
      exact ⟨List.mem_cons_self _ _, by simp, by simp⟩
    · simp only [popMin, hpm] at h
      obtain ⟨hmem, hmin, hperm⟩ := ih m' r' hpm
      by_cases hk : keyLe e m' = true
      · rw [if_pos hk] at h
        injection h with h1
        injection h1 with hm hr
        subst hm; subst hr
        refine ⟨List.mem_cons_self _ _, ?_, List.Perm.refl _⟩
        intro x hx
        rcases List.mem_cons.mp hx with hx | hx
        · exact le_of_eq (by rw [hx])
        · exact le_trans (keyLe_time_le _ _ hk) (hmin x hx)
      · rw [if_neg hk] at h
        injection h with h1
        injection h1 with hm hr
        subst hm; subst hr
        have hkf : keyLe e m' = false := Bool.eq_false_iff.mpr hk
        refine ⟨List.mem_cons_of_mem _ hmem, ?_, ?_⟩
        · intro x hx
          rcases List.mem_cons.mp hx with hx | hx
          · rw [hx]
            exact keyLe_false_time_le _ _ hkf
          · exact hmin x hx
        · exact (hperm.cons e).trans (List.Perm.swap m' e r')

/-- C1: popping a non-empty Event Queue returns an event whose scheduled
time is minimal among all stored events (the queue is reordered but loses
exactly the extracted entry).  The queue with minimum extraction is
modelled from the spec (§4.3): `pseudo.PriorityQueue` is an empty-bodied
`list` subclass. -/
theorem popMin_yields_global_minimum (q : List MEvent) (h : q ≠ []) :
    ∃ e q', popMin q = some (e, q') ∧ e ∈ q ∧
      (∀ f ∈ q, e.time ≤ f.time) ∧ q.Perm (e :: q') := by
  rcases hpm : popMin q with _ | ⟨m, r⟩
  · exact absurd ((popMin_eq_none_iff q).mp hpm) h
  · obtain ⟨h1, h2, h3⟩ := popMin_spec q m r hpm
    exact ⟨m, r, rfl, h1, h2, h3⟩

/-- Witness for `popMin_yields_global_minimum` on a concrete two-event
queue whose later-inserted event has the smaller time. -/
theorem popMin_yields_global_minimum_w :
    ∃ e q', popMin [⟨2, 0, MTarget.wall 0, 0, 0⟩, ⟨1, 1, MTarget.wall 0, 0, 0⟩] =
        some (e, q') ∧
      e ∈ [⟨2, 0, MTarget.wall 0, 0, 0⟩, ⟨1, 1, MTarget.wall 0, 0, 0⟩] ∧
      (∀ f ∈ [(⟨2, 0, MTarget.wall 0, 0, 0⟩ : MEvent), ⟨1, 1, MTarget.wall 0, 0, 0⟩],
        e.time ≤ f.time) ∧
      List.Perm [⟨2, 0, MTarget.wall 0, 0, 0⟩, ⟨1, 1, MTarget.wall 0, 0, 0⟩] (e :: q') :=
  popMin_yields_global_minimum _ (List.cons_ne_nil _ _)

/-- Propositional reading of `eventOK`. -/
theorem eventOK_iff (now : ℚ) (cs : List ℕ) (e : MEvent) :
    eventOK now cs e = true ↔
      now ≤ e.time ∧ e.a < cs.length ∧ e.snapA ≤ cs.getD e.a 0 ∧
        ∀ j, e.b = MTarget.particle j → j < cs.length ∧ e.snapB ≤ cs.getD j 0 := by
  cases hb : e.b <;> simp [eventOK, hb, Bool.and_eq_true, decide_eq_true_eq, and_assoc]

/-- Propositional reading of `mvalid`. -/
theorem mvalid_iff (cs : List ℕ) (e : MEvent) :
    mvalid cs e = true ↔
      cs.getD e.a 0 = e.snapA ∧
        ∀ j, e.b = MTarget.particle j → cs.getD j 0 = e.snapB := by
  cases hb : e.b <;> simp [mvalid, hb, Bool.and_eq_true]

/-- Propositional reading of `staleB`. -/
theorem staleB_iff (cs : List ℕ) (e : MEvent) :
    staleB cs e = true ↔
      e.snapA < cs.getD e.a 0 ∨
        ∃ j, e.b = MTarget.particle j ∧ e.snapB < cs.getD j 0 := by
  cases hb : e.b <;> simp [staleB, hb, Bool.or_eq_true, decide_eq_true_eq]

/-- A stale event never passes the validity check. -/
theorem staleB_not_valid (cs : List ℕ) (e : MEvent) (h : staleB cs e = true) :
    mvalid cs e = false := by
  rw [Bool.eq_false_iff]
  intro hv
  obtain ⟨h1, h2⟩ := (mvalid_iff cs e).mp hv
  rcases (staleB_iff cs e).mp h with h3 | ⟨j, hj, h3⟩
  · omega
  · have := h2 j hj
    omega

/-- Writing inside bounds then reading the same slot gives the new value. -/
theorem set_getD_self (cs : List ℕ) (i v : ℕ) (h : i < cs.length) :
    (cs.set i v).getD i 0 = v := by
  induction cs generalizing i with
  | nil => simp at h
  | cons c t ih =>
    cases i with
    | zero => rfl
    | succ n => exact ih n (by simpa using h)

/-- Writing one slot leaves every other slot unchanged. -/
theorem set_getD_ne (cs : List ℕ) (i k v : ℕ) (h : i ≠ k) :
    (cs.set i v).getD k 0 = cs.getD k 0 := by
  induction cs generalizing i k with
  | nil => rfl
  | cons c t ih =>
    cases i with
    | zero =>
      cases k with
      | zero => exact absurd rfl h
      | succ m => rfl
    | succ n =>
      cases k with
      | zero => rfl
      | succ m => exact ih n m (fun he => h (by rw [he]))

/-- Writing outside the list is a no-op. -/
theorem set_oob (cs : List ℕ) (i v : ℕ) (h : cs.length ≤ i) : cs.set i v = cs := by
  induction cs generalizing i with
  | nil => rfl
  | cons c t ih =>
    cases i with
    | zero => simp at h
    | succ n =>
      show c :: t.set n v = c :: t
      rw [ih n (Nat.le_of_succ_le_succ h)]

/-- Incrementing one counter never decreases any counter. -/
theorem cinc_getD_ge (cs : List ℕ) (i k : ℕ) :
    cs.getD k 0 ≤ (cinc cs i).getD k 0 := by
  by_cases hik : i = k
  · subst hik
    by_cases hlen : i < cs.length
    · rw [cinc, set_getD_self _ _ _ hlen]
      omega
    · rw [cinc, set_oob _ _ _ (le_of_not_lt hlen)]
  · rw [cinc, set_getD_ne _ _ _ _ hik]

/-- Incrementing an in-range counter strictly increases it. -/
theorem cinc_getD_lt (cs : List ℕ) (i : ℕ) (h : i < cs.length) :
    cs.getD i 0 < (cinc cs i).getD i 0 := by
  rw [cinc, set_getD_self _ _ _ h]
  omega

/-- The function `cinc` preserves the counter-table length. -/
theorem cinc_length (cs : List ℕ) (i : ℕ) : (cinc cs i).length = cs.length := by
  simp [cinc]

/-- The function `bump` preserves the counter-table length. -/
theorem bump_length (cs : List ℕ) (e : MEvent) : (bump cs e).length = cs.length := by
  cases hb : e.b <;> simp [bump, hb, cinc]

/-- Resolving an event never decreases any collision counter. -/
theorem bump_getD_ge (cs : List ℕ) (e : MEvent) (k : ℕ) :
    cs.getD k 0 ≤ (bump cs e).getD k 0 := by
  cases hb : e.b with
  | particle j =>
    simp only [bump, hb]
    exact le_trans (cinc_getD_ge cs e.a k) (cinc_getD_ge _ j k)
  | wall j =>
    simpa [bump, hb] using cinc_getD_ge cs e.a k

/-- The particle participants of an event are its `a` field, plus the `b`
id when `b` is a particle. -/
theorem parts_cases (e : MEvent) (p : ℕ) (hp : p ∈ parts e) :
    p = e.a ∨ ∃ j, e.b = MTarget.particle j ∧ p = j := by
  cases hb : e.b with
  | particle j =>
    have hpa : p = e.a ∨ p = j := by simpa [parts, hb] using hp
    rcases hpa with h | h
    · exact Or.inl h
    · exact Or.inr ⟨j, rfl, h⟩
  | wall j =>
    simp [parts, hb] at hp
    exact Or.inl hp

/-- Resolving an event strictly increases the counter of each of its
in-range particle participants. -/
theorem bump_getD_strict (cs : List ℕ) (e : MEvent) (p : ℕ) (hp : p ∈ parts e)
    (hlen : p < cs.length) : cs.getD p 0 < (bump cs e).getD p 0 := by
  cases hb : e.b with
  | wall j =>
    have hpa : p = e.a := by simpa [parts, hb] using hp
    rw [hpa] at hlen ⊢
    simpa [bump, hb] using cinc_getD_lt cs e.a hlen
  | particle j =>
    have hpa : p = e.a ∨ p = j := by simpa [parts, hb] using hp
    simp only [bump, hb]
    rcases hpa with h | h
    · rw [h] at hlen ⊢
      exact lt_of_lt_of_le (cinc_getD_lt cs e.a hlen) (cinc_getD_ge _ j e.a)
    · rw [h] at hlen ⊢
      refine lt_of_le_of_lt (cinc_getD_ge cs e.a j) ?_
      exact cinc_getD_lt _ j (by rw [cinc_length]; exact hlen)

/-- Case analysis on one loop iteration: either the popped minimum is
valid and gets resolved (time advances, counters bump, log grows,
re-predicted events are appended), or it is stale and silently dropped. -/
theorem mstep_cases (pred : MState → List Cand) (s : MState) (a : MAction)
    (s' : MState) (h : mstep pred s = some (a, s')) :
    ∃ e q', popMin s.queue = some (e, q') ∧
      ((mvalid s.counters e = true ∧ a = MAction.resolved e ∧
          s'.now = e.time ∧ s'.counters = bump s.counters e ∧
          s'.queue = q' ++ (pred (MState.mk e.time (bump s.counters e) q'
            (s.log ++ [e]))).map (mkMEvent (bump s.counters e)) ∧
          s'.log = s.log ++ [e]) ∨
        (mvalid s.counters e = false ∧ a = MAction.discarded e ∧
          s'.now = s.now ∧ s'.counters = s.counters ∧
          s'.queue = q' ∧ s'.log = s.log)) := by
  rcases hpm : popMin s.queue with _ | ⟨e, q'⟩
  · simp [mstep, hpm] at h
  · simp only [mstep, hpm] at h
    by_cases hv : mvalid s.counters e = true
    · rw [if_pos hv] at h
      injection h with h1
      injection h1 with ha hs
      refine ⟨e, q', rfl, Or.inl ⟨hv, ha.symm, ?_, ?_, ?_, ?_⟩⟩ <;> rw [← hs]
    · rw [if_neg hv] at h
      injection h with h1
      injection h1 with ha hs
      exact ⟨e, q', rfl, Or.inr ⟨Bool.eq_false_iff.mpr hv, ha.symm,
        by rw [← hs], by rw [← hs], by rw [← hs], by rw [← hs]⟩⟩

/-- One iteration never shrinks any collision counter and keeps the
counter-table length. -/
theorem mstep_counters_mono (pred : MState → List Cand) (s : MState) (a : MAction)
    (s' : MState) (h : mstep pred s = some (a, s')) :
    s'.counters.length = s.counters.length ∧
      ∀ k, s.counters.getD k 0 ≤ s'.counters.getD k 0 := by
  obtain ⟨e, q', _, hcase⟩ := mstep_cases pred s a s' h
  rcases hcase with ⟨_, _, _, hc, _, _⟩ | ⟨_, _, _, hc, _, _⟩
  · rw [hc]
    exact ⟨bump_length _ _, fun k => bump_getD_ge _ _ _⟩
  · rw [hc]
    exact ⟨rfl, fun k => le_refl _⟩

/-- Staleness is permanent: counters only grow. -/
theorem stale_persists (pred : MState → List Cand) (s : MState) (a : MAction)
    (s' : MState) (h : mstep pred s = some (a, s')) (e : MEvent)
    (hst : staleB s.counters e = true) : staleB s'.counters e = true := by
  obtain ⟨_, hmono⟩ := mstep_counters_mono pred s a s' h
  rcases (staleB_iff _ e).mp hst with h1 | ⟨j, hj, h2⟩
  · exact (staleB_iff _ e).mpr (Or.inl (lt_of_lt_of_le h1 (hmono e.a)))
  · exact (staleB_iff _ e).mpr (Or.inr ⟨j, hj, lt_of_lt_of_le h2 (hmono j)⟩)

/-- A single iteration cannot resolve a stale event. -/
theorem stale_not_resolved_step (pred : MState → List Cand) (s : MState)
    (s' : MState) (e : MEvent) (hst : staleB s.counters e = true)
    (h : mstep pred s = some (MAction.resolved e, s')) : False := by
  obtain ⟨e0, q', _, hcase⟩ := mstep_cases pred s (MAction.resolved e) s' h
  rcases hcase with ⟨hv, ha, _⟩ | ⟨_, ha, _⟩
  · injection ha with he
    rw [← he] at hv
    rw [staleB_not_valid _ _ hst] at hv
    cases hv
  · cases ha

/-- A stale event is never resolved in any number of further iterations:
once a participant's counter moved past the stored snapshot, the event can
only ever be discarded. -/
theorem stale_never_resolved (pred : MState → List Cand) (e : MEvent) (k : ℕ)
    (s : MState) (hst : staleB s.counters e = true) :
    MAction.resolved e ∉ (mrun pred k s).1 := by
  induction k generalizing s with
  | zero => simp [mrun]
  | succ n ih =>
    rcases hstep : mstep pred s with _ | ⟨a, s'⟩
    · simp [mrun, hstep]
    · simp only [mrun, hstep]
      intro hmem
      rcases List.mem_cons.mp hmem with hmem | hmem
      · exact stale_not_resolved_step pred s s' e hst (hmem ▸ hstep)
      · exact ih s' (stale_persists pred s a s' hstep e hst) hmem

/-- Resolving a collision makes every event that was already queued and
shares a particle participant stale. -/
theorem resolved_makes_stale (pred : MState → List Cand) (s : MState)
    (hInv : MInv s) (r : MEvent) (s' : MState)
    (hstep : mstep pred s = some (MAction.resolved r, s'))
    (e : MEvent) (he : e ∈ s.queue) (hsh : sharesParticle e r) :
    staleB s'.counters e = true := by
  obtain ⟨r0, q', hpm, hcase⟩ := mstep_cases pred s (MAction.resolved r) s' hstep
  rcases hcase with ⟨hv, ha, hnow, hc, hq, hl⟩ | ⟨_, ha, _⟩
  · injection ha with hr
    rw [← hr] at hpm hv hc
    have hrmem : r ∈ s.queue := (popMin_spec _ _ _ hpm).1
    have hrOK := (eventOK_iff _ _ r).mp (hInv r hrmem)
    have heOK := (eventOK_iff _ _ e).mp (hInv e he)
    obtain ⟨p, hpe, hpr⟩ := hsh
    have hplen : p < s.counters.length := by
      rcases parts_cases r p hpr with hpa | ⟨j, hj, hpj⟩
      · rw [hpa]
        exact hrOK.2.1
      · rw [hpj]
        exact (hrOK.2.2.2 j hj).1
    have hstrict : s.counters.getD p 0 < (bump s.counters r).getD p 0 :=
      bump_getD_strict _ _ _ hpr hplen
    rw [hc]
    apply (staleB_iff _ e).mpr
    rcases parts_cases e p hpe with hpa | ⟨j, hj, hpj⟩
    · rw [hpa] at hstrict
      exact Or.inl (lt_of_le_of_lt heOK.2.2.1 hstrict)
    · rw [hpj] at hstrict
      exact Or.inr ⟨j, hj, lt_of_le_of_lt (heOK.2.2.2 j hj).2 hstrict⟩
  · cases ha

/-- C3 (amended): an event that is already stored in the Event Queue when
a collision involving one of its particle participants is resolved becomes
stale — its stored collision-counter snapshot no longer matches the
participant's current counter — and is never passed to the Collision
Resolver in any number of further iterations; whenever it is popped it can
only appear in the trace as discarded.  The counter mechanism is modelled
from the spec (§4.3); the `Event` dataclass in the source stores no
snapshots. -/
theorem lazy_invalidation_never_resolves (pred : MState → List Cand) (s : MState)
    (hInv : MInv s) (r : MEvent) (s' : MState)
    (hstep : mstep pred s = some (MAction.resolved r, s'))
    (e : MEvent) (he : e ∈ s.queue) (hsh : sharesParticle e r) (k : ℕ) :
    staleB s'.counters e = true ∧ MAction.resolved e ∉ (mrun pred k s').1 := by
  have hst := resolved_makes_stale pred s hInv r s' hstep e he hsh
  exact ⟨hst, stale_never_resolved pred e k s' hst⟩

/-- Witness for `lazy_invalidation_never_resolves`: a two-event queue on
particle 0; resolving the time-1 event leaves the queued time-2 event
stale and only ever discarded. -/
theorem lazy_invalidation_never_resolves_w :
    staleB (MState.mk 1 [1] [MEvent.mk 2 0 (MTarget.wall 1) 0 0]
        [MEvent.mk 1 0 (MTarget.wall 0) 0 0]).counters
      (MEvent.mk 2 0 (MTarget.wall 1) 0 0) = true ∧
    MAction.resolved (MEvent.mk 2 0 (MTarget.wall 1) 0 0) ∉
      (mrun (fun _ => []) 1 (MState.mk 1 [1] [MEvent.mk 2 0 (MTarget.wall 1) 0 0]
        [MEvent.mk 1 0 (MTarget.wall 0) 0 0])).1 :=
  lazy_invalidation_never_resolves (fun _ => [])
    (MState.mk 0 [0]
      [MEvent.mk 1 0 (MTarget.wall 0) 0 0, MEvent.mk 2 0 (MTarget.wall 1) 0 0] [])
    (by decide)
    (MEvent.mk 1 0 (MTarget.wall 0) 0 0)
    (MState.mk 1 [1] [MEvent.mk 2 0 (MTarget.wall 1) 0 0]
      [MEvent.mk 1 0 (MTarget.wall 0) 0 0])
    (by decide)
    (MEvent.mk 2 0 (MTarget.wall 1) 0 0)
    (by decide)
    (by decide)
    1

/-- C3 counterexample: the claim as stated fails for events created by
re-prediction after the collision.  Particle 0 collides at time 1; the
re-predicted event at time 2 is popped after that collision, whose time 1
is strictly smaller than 2, yet it is resolved (its snapshot was taken
after the collision), not discarded. -/
theorem lazy_invalidation_cex :
    (mrun (fun s => if s.now = 1 then [Cand.mk 2 0 (MTarget.wall 0)] else []) 2
        (MState.mk 0 [0] [MEvent.mk 1 0 (MTarget.wall 0) 0 0] [])).1 =
      [MAction.resolved (MEvent.mk 1 0 (MTarget.wall 0) 0 0),
       MAction.resolved (MEvent.mk 2 0 (MTarget.wall 0) 1 0)] ∧
    (1 : ℚ) < 2 := by
  constructor
  · decide
  · decide

/-- One iteration preserves the loop invariant and never moves the clock
backwards (needs the predictor contract for the re-inserted events). -/
theorem mstep_MInv (pred : MState → List Cand) (hpred : PredOK pred) (s : MState)
    (a : MAction) (s' : MState) (hInv : MInv s)
    (h : mstep pred s = some (a, s')) : MInv s' ∧ s.now ≤ s'.now := by
  obtain ⟨e, q', hpm, hcase⟩ := mstep_cases pred s a s' h
  obtain ⟨hemem, hmin, hperm⟩ := popMin_spec _ _ _ hpm
  have hq'sub : ∀ x ∈ q', x ∈ s.queue := fun x hx =>
    hperm.mem_iff.mpr (List.mem_cons_of_mem _ hx)
  have heOK := (eventOK_iff _ _ e).mp (hInv e hemem)
  rcases hcase with ⟨hv, ha, hnow, hc, hq, hl⟩ | ⟨hv, ha, hnow, hc, hq, hl⟩
  · refine ⟨?_, ?_⟩
    · intro x hx
      rw [hq] at hx
      rcases List.mem_append.mp hx with hx | hx
      · have hxOK := (eventOK_iff _ _ x).mp (hInv x (hq'sub x hx))
        apply (eventOK_iff _ _ x).mpr
        refine ⟨?_, ?_, ?_, ?_⟩
        · rw [hnow]
          exact hmin x (hq'sub x hx)
        · rw [hc, bump_length]
          exact hxOK.2.1
        · rw [hc]
          exact le_trans hxOK.2.2.1 (bump_getD_ge _ _ _)
        · intro j hj
          obtain ⟨hj1, hj2⟩ := hxOK.2.2.2 j hj
          exact ⟨by rw [hc, bump_length]; exact hj1,
            by rw [hc]; exact le_trans hj2 (bump_getD_ge _ _ _)⟩
      · obtain ⟨c, hcmem, hcx⟩ := List.mem_map.mp hx
        have hcOK := hpred _ c hcmem
        rw [← hcx]
        apply (eventOK_iff _ _ _).mpr
        refine ⟨?_, ?_, ?_, ?_⟩
        · rw [hnow]
          exact hcOK.1
        · rw [hc, bump_length]
          have h2 : c.a < (bump s.counters e).length := hcOK.2.1
          rw [bump_length] at h2
          exact h2
        · rw [hc]
          exact le_of_eq rfl
        · intro j hj
          have hj' : c.b = MTarget.particle j := hj
          have hcb := hcOK.2.2
          rw [hj'] at hcb
          refine ⟨?_, ?_⟩
          · rw [hc, bump_length]
            have h2 : j < (bump s.counters e).length := hcb
            rw [bump_length] at h2
            exact h2
          · rw [hc]
            simp [mkMEvent, hj']
    · rw [hnow]
      exact heOK.1
  · refine ⟨?_, le_of_eq hnow.symm⟩
    intro x hx
    rw [hq] at hx
    have hxOK := hInv x (hq'sub x hx)
    rw [hnow, hc]
    exact hxOK

/-- C6: starting from a well-formed state, every event the queue yields
for resolution is scheduled no earlier than the simulation time at which
it is popped, so the collision-log time column — the times of the
resolved events, in processing order — is non-decreasing, and its first
entry is at or after the starting time.  The queue and its invariant are
modelled from the spec (§4.3, §4.5). -/
theorem monotone_event_times (pred : MState → List Cand) (hpred : PredOK pred)
    (s : MState) (hInv : MInv s) (k : ℕ) :
    List.Chain' (· ≤ ·) (s.now :: resolvedTimes (mrun pred k s).1) := by
  induction k generalizing s with
  | zero => simp [mrun, resolvedTimes]
  | succ n ih =>
    rcases hstep : mstep pred s with _ | ⟨a, s'⟩
    · simp [mrun, hstep, resolvedTimes]
    · obtain ⟨hInv', hle⟩ := mstep_MInv pred hpred s a s' hInv hstep
      have ihs' := ih s' hInv'
      obtain ⟨e, q', hpm, hcase⟩ := mstep_cases pred s a s' hstep
      simp only [mrun, hstep]
      simp only [resolvedTimes] at ihs' ⊢
      rcases hcase with ⟨hv, ha, hnow, _, _, _⟩ | ⟨hv, ha, hnow, _, _, _⟩
      · rw [ha]
        simp only [List.filterMap_cons]
        refine List.chain'_cons.mpr ⟨?_, ?_⟩
        · exact ((eventOK_iff _ _ e).mp (hInv e (popMin_spec _ _ _ hpm).1)).1
        · rw [← hnow]
          exact ihs'
      · rw [ha]
        simp only [List.filterMap_cons]
        rw [← hnow]
        exact ihs'

/-- Witness for `monotone_event_times` on a one-event queue. -/
theorem monotone_event_times_w :
    List.Chain' (· ≤ ·)
      ((MState.mk 0 [0] [MEvent.mk 1 0 (MTarget.wall 0) 0 0] []).now ::
        resolvedTimes
          (mrun (fun _ => []) 2 (MState.mk 0 [0] [MEvent.mk 1 0 (MTarget.wall 0) 0 0] [])).1) :=
  monotone_event_times (fun _ => []) (fun _ c hc => absurd hc (List.not_mem_nil c))
    _ (by decide) 2

/-- C8: the engine is deterministic — the loop is a pure function of the
initial state, the predictor and the step budget, with no randomness or
ambient input, so two runs from identical initial states process the same
action sequence and serialize byte-identical collision logs. -/
theorem run_deterministic (pred : MState → List Cand) (k : ℕ) (s t : MState)
    (h : s = t) :
    (mrun pred k s).1 = (mrun pred k t).1 ∧
      logLines (mrun pred k s).2 = logLines (mrun pred k t).2 := by
  subst h
  exact ⟨rfl, rfl⟩

/-- Witness for `run_deterministic` on a concrete state. -/
theorem run_deterministic_w :
    (mrun (fun _ => []) 1 (MState.mk 0 [] [] [])).1 =
        (mrun (fun _ => []) 1 (MState.mk 0 [] [] [])).1 ∧
      logLines (mrun (fun _ => []) 1 (MState.mk 0 [] [] [])).2 =
        logLines (mrun (fun _ => []) 1 (MState.mk 0 [] [] [])).2 :=
  run_deterministic (fun _ => []) 1 _ _ rfl

end TP3
